import Mathlib

/-!
# Verification of the Party/Person service layer

Shallow embedding of `app/services/person_service.py` (class `PersonService`)
and the data model of `app/models/database.py` from the
`project-starter-python-fast-api` repository.

Modelling choices:
* The relational store is a pair of lists (`parties`, `people`) kept in
  insertion order, together with a counter `nextId` that models the
  `uuid.uuid4()` id generator: each generated id is `mkId k` for a fresh
  `k`, so ids are pairwise distinct exactly as uuids are.  Ids are `Nat`
  in the model; `mkId k = k + 1`, so a generated id is never `0`, which
  plays the role of the empty string: the Python truthiness test
  `if person.party_id:` on the non-null uuid string column becomes
  `person.party_id ≠ 0`.
* SQLAlchemy queries are translated literally: `select(...).where(cond)`
  with `scalar_one_or_none()` becomes `List.find?` with the same
  condition, `update(...).where(cond).values(...)` becomes `List.map`
  applying the assignment to the rows matching the condition, and the
  ORM relationship `person.party` becomes a `find?` on `party_id`.
* `raise ValueError(...)` becomes the `Except.error` branch; since every
  raise in the service happens before any write, the caller's state is
  unchanged on error, which the `Except String (DB × _)` signature makes
  explicit (an error carries no new state).
* Pydantic's distinction between an unset field and a field explicitly
  set to `None` (`model_dump(exclude_unset=True, exclude_none=True)`) is
  modelled by the three-valued type `UpdField`.
* Timestamp columns (`created_at`, `updated_at`) are server-maintained
  audit data that no claim mentions and are not modelled.  Dates
  (`date_of_birth`) are opaque strings.
-/

/-- A row of the `parties` table (`app/models/database.py`, class `Party`). -/
structure Party where
  id : Nat
  party_type : String
  display_name : String
  status : String
deriving DecidableEq, Repr

/-- A row of the `people` table (`app/models/database.py`, class `Person`). -/
structure Person where
  id : Nat
  party_id : Nat
  first_name : String
  last_name : String
  date_of_birth : Option String
  email : String
  phone : Option String
  is_active : Bool
deriving DecidableEq, Repr

/-- The create payload (`PersonCreate`): at the service layer the email has
already been converted by `str(person_data.email)`, so it is a `String`. -/
structure PersonCreate where
  first_name : String
  last_name : String
  date_of_birth : Option String
  email : String
  phone : Option String
deriving DecidableEq, Repr

/-- A pydantic field of a partial-update payload: unset, explicitly `None`,
or set to a value.  `model_dump(exclude_unset=True, exclude_none=True)`
keeps only the `val` case. -/
inductive UpdField (α : Type) where
  | unset : UpdField α
  | null : UpdField α
  | val : α → UpdField α
deriving DecidableEq, Repr

namespace UpdField

/-- The value the field contributes to the `data` dict of
`model_dump(exclude_unset=True, exclude_none=True)`: `some` only for a
genuinely provided, non-null value. -/
def provided? {α : Type} : UpdField α → Option α
  | unset => none
  | null => none
  | val a => some a

/-- Whether the field appears in the `data` dict at all. -/
def isProvided {α : Type} (f : UpdField α) : Bool := f.provided?.isSome

/-- Turn an explicitly supplied null into an absent field, leaving the
other cases alone. -/
def eraseNull {α : Type} : UpdField α → UpdField α
  | unset => unset
  | null => unset
  | val a => val a

end UpdField

/-- The partial-update payload (`PersonUpdate`).  `party_id` is not a field
of the pydantic model (intentionally excluded in the source), so it cannot
even be supplied. -/
structure PersonUpdate where
  first_name : UpdField String
  last_name : UpdField String
  date_of_birth : UpdField String
  email : UpdField String
  phone : UpdField String
deriving DecidableEq, Repr

/-- The nested party summary (`PartyOut`). -/
structure PartyOut where
  id : Nat
  party_type : String
  display_name : String
  status : String
deriving DecidableEq, Repr

/-- The composed Person+Party view (`PersonResponse`). -/
structure PersonResponse where
  id : Nat
  party : PartyOut
  first_name : String
  last_name : String
  date_of_birth : Option String
  email : String
  phone : Option String
  is_active : Bool
deriving DecidableEq, Repr

/-- The relational store: both tables in insertion order, plus the state of
the uuid generator (see the module docstring). -/
structure DB where
  parties : List Party
  people : List Person
  nextId : Nat
deriving DecidableEq, Repr

/-- The id produced for generator state `k`; ids are never `0` (a uuid
string is never empty). -/
def mkId (k : Nat) : Nat := k + 1

/-- The empty store. -/
def emptyDB : DB := { parties := [], people := [], nextId := 0 }

/-- `PartyOut.model_validate(party)`. -/
def partyOut (pa : Party) : PartyOut :=
  { id := pa.id, party_type := pa.party_type, display_name := pa.display_name,
    status := pa.status }

/-- Assembly of the `PersonResponse` from a Person row and its Party row,
as written out in the service methods. -/
def mkResponse (p : Person) (pa : Party) : PersonResponse :=
  { id := p.id, party := partyOut pa, first_name := p.first_name,
    last_name := p.last_name, date_of_birth := p.date_of_birth,
    email := p.email, phone := p.phone, is_active := p.is_active }

/-- `select(Person).where(Person.email == e)` + `scalar_one_or_none()`
is truthy: some Person row (active or not) has this email. -/
def emailExists (people : List Person) (e : String) : Bool :=
  (people.find? (fun p => p.email == e)).isSome

/-- The Party row inserted by `create_person`: `display_name` is the
f-string `f"{first_name} {last_name}"`, `party_type` is `"person"`,
`status` is `"active"`, and the id comes from the generator. -/
def newParty (s : DB) (pd : PersonCreate) : Party :=
  { id := mkId s.nextId, party_type := "person",
    display_name := pd.first_name ++ " " ++ pd.last_name,
    status := "active" }

/-- The Person row inserted by `create_person`: references the new
Party's id, copies the input fields, and gets the column default
`is_active = True`. -/
def newPerson (s : DB) (pd : PersonCreate) : Person :=
  { id := mkId (s.nextId + 1), party_id := mkId s.nextId,
    first_name := pd.first_name, last_name := pd.last_name,
    date_of_birth := pd.date_of_birth, email := pd.email,
    phone := pd.phone, is_active := true }

/-- The store after a successful `create_person`: both rows inserted in
the one committed transaction. -/
def createdDB (s : DB) (pd : PersonCreate) : DB :=
  { parties := s.parties ++ [newParty s pd],
    people := s.people ++ [newPerson s pd],
    nextId := s.nextId + 2 }

/-- `PersonService.create_person` (`app/services/person_service.py`,
lines 10-49): duplicate-email pre-check, then Party insert, then Person
insert, one transaction committed at the end. -/
def create_person (s : DB) (pd : PersonCreate) :
    Except String (DB × PersonResponse) :=
  if emailExists s.people pd.email then
    .error "Email already exists"
  else
    .ok (createdDB s pd, mkResponse (newPerson s pd) (newParty s pd))

/-- `PersonService.get_person` (lines 51-66): requires the row to exist,
be active, and have its Party relation present; otherwise `None`. -/
def get_person (s : DB) (pid : Nat) : Option PersonResponse :=
  match s.people.find? (fun p => p.id == pid && p.is_active) with
  | none => none
  | some person =>
    match s.parties.find? (fun pa => pa.id == person.party_id) with
    | none => none
    | some party => some (mkResponse person party)

/-- Whether the `data` dict of `model_dump(exclude_unset=True,
exclude_none=True)` is non-empty. -/
def anyProvided (u : PersonUpdate) : Bool :=
  u.first_name.isProvided || u.last_name.isProvided ||
  u.date_of_birth.isProvided || u.email.isProvided || u.phone.isProvided

/-- `update(Person).where(...).values(**data)` applied to one row: each
provided field is assigned, the rest keep their value.  `id` and
`party_id` are not assignable (`party_id` is popped defensively and is not
a `PersonUpdate` field at all). -/
def applyUpd (u : PersonUpdate) (p : Person) : Person :=
  { p with
    first_name := (u.first_name.provided?).getD p.first_name,
    last_name := (u.last_name.provided?).getD p.last_name,
    date_of_birth :=
      match u.date_of_birth.provided? with
      | some d => some d
      | none => p.date_of_birth,
    email := (u.email.provided?).getD p.email,
    phone :=
      match u.phone.provided? with
      | some ph => some ph
      | none => p.phone }

/-- `select(Person).where(Person.email == e, Person.id != pid)` +
`scalar_one_or_none()` is truthy: some other row already uses the email. -/
def otherHasEmail (people : List Person) (e : String) (pid : Nat) : Bool :=
  (people.find? (fun p => p.email == e && p.id != pid)).isSome

/-- Whether the `'email' in data` pre-check of `update_person` fires:
the email is among the provided fields and some other row uses it. -/
def emailConflictB (s : DB) (pid : Nat) (u : PersonUpdate) : Bool :=
  match u.email.provided? with
  | some e => otherHasEmail s.people e pid
  | none => false

/-- `update(Person).where(Person.id == pid, Person.is_active ==
True).values(**data)` over the whole table. -/
def updPeople (s : DB) (pid : Nat) (u : PersonUpdate) : List Person :=
  s.people.map (fun p => if p.id == pid && p.is_active then applyUpd u p else p)

/-- The store after the Person field update, before the display-name
fix. -/
def midState (s : DB) (pid : Nat) (u : PersonUpdate) : DB :=
  { s with people := updPeople s pid u }

/-- Lines 102-110 of the service: re-fetch the row by id (no active
filter), and if it and its Party relation exist, write the Party's
`display_name` from the row's current names. -/
def fixDisplay (s : DB) (pid : Nat) : DB :=
  match s.people.find? (fun p => p.id == pid) with
  | none => s
  | some person2 =>
    match s.parties.find? (fun pa => pa.id == person2.party_id) with
    | none => s
    | some _ =>
      { s with parties :=
          s.parties.map (fun pa =>
            if pa.id == person2.party_id then
              { pa with display_name :=
                  person2.first_name ++ " " ++ person2.last_name }
            else pa) }

/-- The store after the write phase of a successful `update_person`
that found its target: the field update, then the display-name fix when
a name field was provided. -/
def afterUpdate (s : DB) (pid : Nat) (u : PersonUpdate) : DB :=
  if u.first_name.isProvided || u.last_name.isProvided then
    fixDisplay (midState s pid u) pid
  else midState s pid u

/-- `PersonService.update_person` (lines 68-112): drop unset and null
fields; empty update behaves as `get_person`; duplicate-email check runs
before the target-existence check; the field update targets the active
row; if a name field was provided, the linked Party's `display_name` is
recomputed from the re-fetched row; finally the composed view is
re-read. -/
def update_person (s : DB) (pid : Nat) (u : PersonUpdate) :
    Except String (DB × Option PersonResponse) :=
  if anyProvided u = false then
    .ok (s, get_person s pid)
  else if emailConflictB s pid u then
    .error "Email already exists"
  else
    match s.people.find? (fun p => p.id == pid && p.is_active) with
    | none => .ok (s, none)
    | some _ =>
      .ok (afterUpdate s pid u, get_person (afterUpdate s pid u) pid)

/-- The write phase of `PersonService.delete_person` (lines 114-133):
soft-delete the Person row; if `person.party_id` is truthy (the uuid
string is non-empty, i.e. the id is not `0` in the model), archive the
Party row. -/
def deleteApply (s : DB) (pid : Nat) (partyId : Nat) : DB :=
  { s with
    people := s.people.map (fun p =>
      if p.id == pid then { p with is_active := false } else p),
    parties :=
      if partyId ≠ 0 then
        s.parties.map (fun pa =>
          if pa.id == partyId then { pa with status := "archived" } else pa)
      else s.parties }

/-- `PersonService.delete_person` (lines 114-133): lookup by id only
(active or not); when found, apply the soft delete and return
`rowcount > 0` of the Person update statement. -/
def delete_person (s : DB) (pid : Nat) : DB × Bool :=
  match s.people.find? (fun p => p.id == pid) with
  | none => (s, false)
  | some person =>
    (deleteApply s pid person.party_id,
     decide (0 < (s.people.filter (fun p => p.id == pid)).length))

/-- Modelled from the spec: `PersonService.list_people` is called by the
API route `GET /parties/people/` (`app/api/people.py`) but its definition
is not present in the source tree.  Per spec §4.1: "Returns active Persons
(with composed Party view) ordered by an implementation-defined stable
order (insertion order is acceptable), skipping `skip` and returning at
most `limit`", with assembly per §4.2 requiring the Party to exist. -/
def list_people (s : DB) (skip limit : Nat) : List PersonResponse :=
  ((((s.people.filter (fun p => p.is_active)).drop skip).take limit).filterMap
    (fun p =>
      match s.parties.find? (fun pa => pa.id == p.party_id) with
      | none => none
      | some pa => some (mkResponse p pa)))

/-- Python's `str.strip()` over the character list: drop whitespace from
both ends. -/
def stripChars (l : List Char) : List Char :=
  ((l.dropWhile Char.isWhitespace).reverse.dropWhile Char.isWhitespace).reverse

/-- A name that passed the `validate_name_not_empty` pydantic validator
(`app/models/database.py`): non-empty after stripping, and handed to the
service already stripped. -/
def validatedName (v : String) : Prop :=
  stripChars v.toList = v.toList ∧ v ≠ ""

/-- Modelled from the spec: pydantic's `EmailStr` syntactic validity is
enforced upstream of the service and its implementation is not part of
this repository; abstracted as the email mentioning an `@`. -/
def validEmail (e : String) : Prop := '@' ∈ e.toList

instance : DecidablePred validatedName := fun v =>
  inferInstanceAs (Decidable (stripChars v.toList = v.toList ∧ v ≠ ""))

instance : DecidablePred validEmail := fun e =>
  inferInstanceAs (Decidable ('@' ∈ e.toList))

/-- One service call, for reachability statements; the call's output is
discarded, an error leaves the store unchanged (the raise happens before
any write). -/
inductive Op where
  | create : PersonCreate → Op
  | get : Nat → Op
  | update : Nat → PersonUpdate → Op
  | delete : Nat → Op
deriving Repr

/-- The store after one service call. -/
def runOp (s : DB) (op : Op) : DB :=
  match op with
  | .create pd =>
    match create_person s pd with
    | .ok (s', _) => s'
    | .error _ => s
  | .get _ => s
  | .update pid u =>
    match update_person s pid u with
    | .ok (s', _) => s'
    | .error _ => s
  | .delete pid => (delete_person s pid).1

/-- The store after a sequence of service calls. -/
def runOps (s : DB) (ops : List Op) : DB :=
  ops.foldl runOp s

/-- Replace every explicitly supplied null field of an update payload by
an unset field.  `model_dump(exclude_unset=True, exclude_none=True)`
cannot tell the two payloads apart. -/
def eraseNulls (u : PersonUpdate) : PersonUpdate :=
  { first_name := u.first_name.eraseNull, last_name := u.last_name.eraseNull,
    date_of_birth := u.date_of_birth.eraseNull, email := u.email.eraseNull,
    phone := u.phone.eraseNull }

/-- Every Person row's linked Party carries the display name derived from
the row's current first and last names. -/
def NamesConsistent (s : DB) : Prop :=
  ∀ p ∈ s.people, ∀ pa ∈ s.parties, pa.id = p.party_id →
    pa.display_name = p.first_name ++ " " ++ p.last_name

/-- Well-formedness of a store, an invariant of all states reachable from
the empty store: every id was produced by the generator (hence is below
`nextId`), table ids and the Person-to-Party foreign keys are pairwise
distinct (uuids never collide; the `unique=True` constraints on
`Person.party_id` and `Person.id`), and display names are consistent. -/
structure WF (s : DB) : Prop where
  partyKey : ∀ pa ∈ s.parties, ∃ k, k < s.nextId ∧ pa.id = mkId k
  personKey : ∀ p ∈ s.people, ∃ k, k < s.nextId ∧ p.id = mkId k
  linkKey : ∀ p ∈ s.people, ∃ k, k < s.nextId ∧ p.party_id = mkId k
  partyNodup : (s.parties.map Party.id).Nodup
  personNodup : (s.people.map Person.id).Nodup
  linkNodup : (s.people.map Person.party_id).Nodup
  names : NamesConsistent s

/-- A party id that exists in the store and all of whose rows (unique in a
well-formed store) are archived. -/
def ArchivedOnly (s : DB) (i : Nat) : Prop :=
  (∃ pa ∈ s.parties, pa.id = i) ∧
  (∀ pa ∈ s.parties, pa.id = i → pa.status = "archived")

/-! ## Concrete fixtures for exercising the operations -/

/-- Sample create payload. -/
def pdJohn : PersonCreate :=
  { first_name := "John", last_name := "Doe", date_of_birth := none,
    email := "john@x.com", phone := none }

/-- A second payload with a distinct email. -/
def pdJane : PersonCreate :=
  { first_name := "Jane", last_name := "Roe", date_of_birth := none,
    email := "jane@x.com", phone := none }

/-- The store holding exactly John. -/
def dbJohn : DB := runOps emptyDB [Op.create pdJohn]

/-- The store holding John and Jane. -/
def dbTwo : DB := runOps emptyDB [Op.create pdJohn, Op.create pdJane]

/-- An update supplying only `first_name`. -/
def updFirst : PersonUpdate :=
  { first_name := UpdField.val "Janet", last_name := UpdField.unset,
    date_of_birth := UpdField.unset, email := UpdField.unset,
    phone := UpdField.unset }

/-- An update whose fields are all unset or explicit nulls. -/
def updNulls : PersonUpdate :=
  { first_name := UpdField.unset, last_name := UpdField.null,
    date_of_birth := UpdField.null, email := UpdField.unset,
    phone := UpdField.null }

/-- An update supplying only an email. -/
def updEmailJohn : PersonUpdate :=
  { first_name := UpdField.unset, last_name := UpdField.unset,
    date_of_birth := UpdField.unset, email := UpdField.val "john@x.com",
    phone := UpdField.unset }

/-- John's Person row as it sits in `dbJohn`. -/
def johnRow : Person :=
  { id := 2, party_id := 1, first_name := "John", last_name := "Doe",
    date_of_birth := none, email := "john@x.com", phone := none,
    is_active := true }

/-- John's Party row as it sits in `dbJohn`. -/
def johnParty : Party :=
  { id := 1, party_type := "person", display_name := "John Doe",
    status := "active" }

/-- John's Party row after a delete archived it. -/
def johnPartyArchived : Party :=
  { id := 1, party_type := "person", display_name := "John Doe",
    status := "archived" }

/-! ## Generic helpers -/

theorem mkId_injEq {a b : Nat} (h : mkId a = mkId b) : a = b := by
  simpa [mkId] using h

theorem find?_eq_some_of_unique {α : Type} {l : List α} (f : α → Nat)
    (hnd : (l.map f).Nodup) {x : α} (hx : x ∈ l) {p : α → Bool}
    (hpx : p x = true) (hpk : ∀ y ∈ l, p y = true → f y = f x) :
    l.find? p = some x := by
  have hs : (l.find? p).isSome := List.find?_isSome.2 ⟨x, hx, hpx⟩
  obtain ⟨z, hz⟩ := Option.isSome_iff_exists.1 hs
  have hzl := List.mem_of_find?_eq_some hz
  have hpz := List.find?_some hz
  have hzx : z = x := List.inj_on_of_nodup_map hnd hzl hx (hpk z hzl hpz)
  rw [hz, hzx]

theorem map_key_eq {α : Type} (l : List α) (g : α → α) (f : α → Nat)
    (h : ∀ y, f (g y) = f y) : (l.map g).map f = l.map f := by
  rw [List.map_map]
  exact List.map_congr_left (fun y _ => by simp [Function.comp, h])

/-! ## Projection lemmas for the row-transforming operations -/

@[simp]
theorem applyUpd_id (u : PersonUpdate) (p : Person) :
    (applyUpd u p).id = p.id := rfl

@[simp]
theorem applyUpd_party_id (u : PersonUpdate) (p : Person) :
    (applyUpd u p).party_id = p.party_id := rfl

@[simp]
theorem applyUpd_is_active (u : PersonUpdate) (p : Person) :
    (applyUpd u p).is_active = p.is_active := rfl

theorem UpdField.provided?_eq_none {α : Type} {f : UpdField α}
    (h : f.isProvided = false) : f.provided? = none := by
  cases f <;> simp_all [UpdField.isProvided, UpdField.provided?]

theorem applyUpd_first {u : PersonUpdate} (h : u.first_name.isProvided = false)
    (p : Person) : (applyUpd u p).first_name = p.first_name := by
  simp [applyUpd, UpdField.provided?_eq_none h]

theorem applyUpd_last {u : PersonUpdate} (h : u.last_name.isProvided = false)
    (p : Person) : (applyUpd u p).last_name = p.last_name := by
  simp [applyUpd, UpdField.provided?_eq_none h]

theorem updPeople_map_id (s : DB) (pid : Nat) (u : PersonUpdate) :
    (updPeople s pid u).map Person.id = s.people.map Person.id :=
  map_key_eq _ _ _ (fun y => by by_cases h : (y.id == pid && y.is_active) <;> simp [h])

theorem updPeople_map_party_id (s : DB) (pid : Nat) (u : PersonUpdate) :
    (updPeople s pid u).map Person.party_id = s.people.map Person.party_id :=
  map_key_eq _ _ _ (fun y => by by_cases h : (y.id == pid && y.is_active) <;> simp [h])

theorem mem_updPeople {s : DB} {pid : Nat} {u : PersonUpdate} {q' : Person}
    (h : q' ∈ updPeople s pid u) :
    ∃ q ∈ s.people, q' = if q.id == pid && q.is_active then applyUpd u q else q := by
  obtain ⟨q, hq, hEq⟩ := List.mem_map.1 h
  exact ⟨q, hq, hEq.symm⟩

theorem fixDisplay_people (s : DB) (pid : Nat) :
    (fixDisplay s pid).people = s.people := by
  unfold fixDisplay
  split
  · rfl
  · split <;> rfl

theorem fixDisplay_nextId (s : DB) (pid : Nat) :
    (fixDisplay s pid).nextId = s.nextId := by
  unfold fixDisplay
  split
  · rfl
  · split <;> rfl

theorem fixDisplay_parties_track (s : DB) (pid : Nat) :
    ∀ pa' ∈ (fixDisplay s pid).parties, ∃ pa ∈ s.parties,
      pa'.id = pa.id ∧ pa'.status = pa.status ∧ pa'.party_type = pa.party_type := by
  unfold fixDisplay
  split
  · exact fun pa' h => ⟨pa', h, rfl, rfl, rfl⟩
  · split
    · exact fun pa' h => ⟨pa', h, rfl, rfl, rfl⟩
    · intro pa' h
      obtain ⟨pa, hpa, hEq⟩ := List.mem_map.1 h
      refine ⟨pa, hpa, ?_⟩
      subst hEq
      split <;> simp

theorem fixDisplay_parties_exists (s : DB) (pid : Nat) :
    ∀ pa ∈ s.parties, ∃ pa' ∈ (fixDisplay s pid).parties,
      pa'.id = pa.id ∧ pa'.status = pa.status := by
  unfold fixDisplay
  split
  · exact fun pa h => ⟨pa, h, rfl, rfl⟩
  · split
    · exact fun pa h => ⟨pa, h, rfl, rfl⟩
    · intro pa hpa
      refine ⟨_, List.mem_map_of_mem _ hpa, ?_⟩
      dsimp only
      split <;> simp

theorem mem_updPeople_cases {s : DB} {pid : Nat} {u : PersonUpdate} {q' : Person}
    (h : q' ∈ updPeople s pid u) :
    q' ∈ s.people ∨
    ∃ q ∈ s.people, (q.id == pid && q.is_active) = true ∧ q' = applyUpd u q := by
  obtain ⟨q, hq, hEq⟩ := mem_updPeople h
  by_cases hc : (q.id == pid && q.is_active) = true
  · right
    exact ⟨q, hq, hc, by rw [hEq]; simp [hc]⟩
  · left
    rw [hEq, if_neg hc]
    exact hq

theorem updPeople_id_of_mem {s : DB} {pid : Nat} {u : PersonUpdate} {q' : Person}
    (h : q' ∈ updPeople s pid u) : ∃ q ∈ s.people, q'.id = q.id ∧ q'.party_id = q.party_id := by
  obtain ⟨q, hq, hEq⟩ := mem_updPeople h
  refine ⟨q, hq, ?_⟩
  rw [hEq]
  split <;> simp

/-! ## The reachability invariant -/

theorem wf_empty : WF emptyDB := by
  constructor <;> simp [emptyDB, NamesConsistent]

theorem wf_createdDB {s : DB} (h : WF s) (pd : PersonCreate) :
    WF (createdDB s pd) := by
  obtain ⟨hpk, hek, hlk, hpn, hen, hln, hnm⟩ := h
  refine ⟨?_, ?_, ?_, ?_, ?_, ?_, ?_⟩
  · intro pa hpa
    simp only [createdDB, List.mem_append, List.mem_singleton] at hpa
    show ∃ k, k < s.nextId + 2 ∧ _
    rcases hpa with hold | rfl
    · obtain ⟨k, hk, hid⟩ := hpk pa hold
      exact ⟨k, by omega, hid⟩
    · exact ⟨s.nextId, by omega, rfl⟩
  · intro p hp
    simp only [createdDB, List.mem_append, List.mem_singleton] at hp
    show ∃ k, k < s.nextId + 2 ∧ _
    rcases hp with hold | rfl
    · obtain ⟨k, hk, hid⟩ := hek p hold
      exact ⟨k, by omega, hid⟩
    · exact ⟨s.nextId + 1, by omega, rfl⟩
  · intro p hp
    simp only [createdDB, List.mem_append, List.mem_singleton] at hp
    show ∃ k, k < s.nextId + 2 ∧ _
    rcases hp with hold | rfl
    · obtain ⟨k, hk, hid⟩ := hlk p hold
      exact ⟨k, by omega, hid⟩
    · exact ⟨s.nextId, by omega, rfl⟩
  · show ((s.parties ++ [newParty s pd]).map Party.id).Nodup
    rw [List.map_append, List.nodup_append]
    refine ⟨hpn, by simp, ?_⟩
    intro a ha hb
    simp only [List.map_cons, List.map_nil, List.mem_singleton] at hb
    subst hb
    obtain ⟨pa, hpa, hEq⟩ := List.mem_map.1 ha
    obtain ⟨k, hk, hid⟩ := hpk pa hpa
    rw [hid] at hEq
    have := mkId_injEq hEq
    omega
  · show ((s.people ++ [newPerson s pd]).map Person.id).Nodup
    rw [List.map_append, List.nodup_append]
    refine ⟨hen, by simp, ?_⟩
    intro a ha hb
    simp only [List.map_cons, List.map_nil, List.mem_singleton] at hb
    subst hb
    obtain ⟨p, hp, hEq⟩ := List.mem_map.1 ha
    obtain ⟨k, hk, hid⟩ := hek p hp
    rw [hid] at hEq
    have := mkId_injEq hEq
    omega
  · show ((s.people ++ [newPerson s pd]).map Person.party_id).Nodup
    rw [List.map_append, List.nodup_append]
    refine ⟨hln, by simp, ?_⟩
    intro a ha hb
    simp only [List.map_cons, List.map_nil, List.mem_singleton] at hb
    subst hb
    obtain ⟨p, hp, hEq⟩ := List.mem_map.1 ha
    obtain ⟨k, hk, hid⟩ := hlk p hp
    rw [hid] at hEq
    have := mkId_injEq hEq
    omega
  · intro p hp pa hpa hid
    simp only [createdDB, List.mem_append, List.mem_singleton] at hp hpa
    rcases hp with hp | rfl <;> rcases hpa with hpa | rfl
    · exact hnm p hp pa hpa hid
    · obtain ⟨k, hk, hl⟩ := hlk p hp
      have : mkId s.nextId = mkId k := by
        rw [← hl, ← hid]
        rfl
      have := mkId_injEq this
      omega
    · obtain ⟨k, hk, hipa⟩ := hpk pa hpa
      have : mkId k = mkId s.nextId := by
        rw [← hipa, hid]
        rfl
      have := mkId_injEq this
      omega
    · rfl

theorem fixDisplay_parties_map_id (s : DB) (pid : Nat) :
    (fixDisplay s pid).parties.map Party.id = s.parties.map Party.id := by
  unfold fixDisplay
  split
  · rfl
  · split
    · rfl
    · exact map_key_eq _ _ _ (fun pa => by split <;> rfl)

theorem namesConsistent_midState_of_not_names {s : DB} {pid : Nat}
    {u : PersonUpdate} (h : WF s)
    (hf : u.first_name.isProvided = false) (hl : u.last_name.isProvided = false) :
    NamesConsistent (midState s pid u) := by
  intro q' hq' pa hpa hid
  rcases mem_updPeople_cases hq' with hq | ⟨q, hq, hc, rfl⟩
  · exact h.names q' hq pa hpa hid
  · rw [applyUpd_first hf, applyUpd_last hl]
    exact h.names q hq pa hpa (by simpa using hid)

theorem namesConsistent_fixDisplay {m : DB} {pid : Nat}
    (hA : (m.people.map Person.id).Nodup)
    (hL : (m.people.map Person.party_id).Nodup)
    (hC : ∀ q ∈ m.people, q.id ≠ pid → ∀ pa ∈ m.parties, pa.id = q.party_id →
      pa.display_name = q.first_name ++ " " ++ q.last_name) :
    NamesConsistent (fixDisplay m pid) := by
  unfold fixDisplay
  split
  next hfind =>
    intro q hq pa hpa hid
    refine hC q hq ?_ pa hpa hid
    intro hqid
    have := List.find?_eq_none.1 hfind q hq
    simp [hqid] at this
  next p2 hfind =>
    have hp2mem : p2 ∈ m.people := List.mem_of_find?_eq_some hfind
    have hp2id : p2.id = pid := by simpa using List.find?_some hfind
    split
    next hpfind =>
      intro q hq pa hpa hid
      by_cases hqid : q.id = pid
      · have hqp2 : q = p2 :=
          List.inj_on_of_nodup_map hA hq hp2mem (by rw [hqid, hp2id])
        subst hqp2
        have := List.find?_eq_none.1 hpfind pa hpa
        simp [hid] at this
      · exact hC q hq hqid pa hpa hid
    next pa0 hpfind =>
      intro q hq pa' hpa' hid
      obtain ⟨pa, hpa, hEq⟩ := List.mem_map.1 hpa'
      by_cases hcond : (pa.id == p2.party_id) = true
      · have hpa'eq : pa' = { pa with display_name :=
            p2.first_name ++ " " ++ p2.last_name } := by
          rw [← hEq, if_pos hcond]
        have hpaid : pa'.id = pa.id := by rw [hpa'eq]
        have hqp : q.party_id = p2.party_id := by
          rw [← hid, hpaid]
          exact by simpa using hcond
        have hq2 : q = p2 := List.inj_on_of_nodup_map hL hq hp2mem hqp
        subst hq2
        rw [hpa'eq]
      · have hpa'eq : pa' = pa := by rw [← hEq, if_neg hcond]
        by_cases hqid : q.id = pid
        · have hqp2 : q = p2 :=
            List.inj_on_of_nodup_map hA hq hp2mem (by rw [hqid, hp2id])
          exfalso
          apply hcond
          have hpae : pa.id = p2.party_id := by rw [← hpa'eq, hid, hqp2]
          simp [hpae]
        · rw [hpa'eq]
          refine hC q hq hqid pa hpa ?_
          rw [← hpa'eq]
          exact hid

theorem wf_afterUpdate {s : DB} (h : WF s) (pid : Nat) (u : PersonUpdate) :
    WF (afterUpdate s pid u) := by
  have hek' : ∀ q' ∈ updPeople s pid u, ∃ k, k < s.nextId ∧ q'.id = mkId k := by
    intro q' hq'
    obtain ⟨q, hq, hid, _⟩ := updPeople_id_of_mem hq'
    rw [hid]
    exact h.personKey q hq
  have hlk' : ∀ q' ∈ updPeople s pid u, ∃ k, k < s.nextId ∧ q'.party_id = mkId k := by
    intro q' hq'
    obtain ⟨q, hq, _, hpid⟩ := updPeople_id_of_mem hq'
    rw [hpid]
    exact h.linkKey q hq
  have hA : ((updPeople s pid u).map Person.id).Nodup := by
    rw [updPeople_map_id]
    exact h.personNodup
  have hL : ((updPeople s pid u).map Person.party_id).Nodup := by
    rw [updPeople_map_party_id]
    exact h.linkNodup
  unfold afterUpdate
  split
  · -- name field provided: the display-name fix runs on the mid state
    refine ⟨?_, ?_, ?_, ?_, ?_, ?_, ?_⟩
    · intro pa hpa
      obtain ⟨pa0, hpa0, hid, _, _⟩ := fixDisplay_parties_track (midState s pid u) pid pa hpa
      rw [fixDisplay_nextId, hid]
      exact h.partyKey pa0 hpa0
    · intro p hp
      rw [fixDisplay_people] at hp
      rw [fixDisplay_nextId]
      exact hek' p hp
    · intro p hp
      rw [fixDisplay_people] at hp
      rw [fixDisplay_nextId]
      exact hlk' p hp
    · rw [fixDisplay_parties_map_id]
      exact h.partyNodup
    · rw [fixDisplay_people]
      exact hA
    · rw [fixDisplay_people]
      exact hL
    · refine namesConsistent_fixDisplay hA hL ?_
      intro q hq hqid pa hpa hid
      rcases mem_updPeople_cases hq with hq0 | ⟨q0, _, hc0, rfl⟩
      · exact h.names q hq0 pa hpa hid
      · exfalso
        apply hqid
        have hq0 : q0.id = pid := by
          simp only [Bool.and_eq_true, beq_iff_eq] at hc0
          exact hc0.1
        simp [hq0]
  · -- no name field provided
    rename_i hnot
    have hff : u.first_name.isProvided = false := by
      simp only [Bool.or_eq_true, not_or, Bool.not_eq_true] at hnot
      exact hnot.1
    have hlf : u.last_name.isProvided = false := by
      simp only [Bool.or_eq_true, not_or, Bool.not_eq_true] at hnot
      exact hnot.2
    refine ⟨h.partyKey, hek', hlk', h.partyNodup, hA, hL, ?_⟩
    exact namesConsistent_midState_of_not_names h hff hlf

theorem deleteApply_people_map_id (s : DB) (pid partyId : Nat) :
    (deleteApply s pid partyId).people.map Person.id = s.people.map Person.id :=
  map_key_eq _ _ _ (fun y => by split <;> rfl)

theorem deleteApply_people_map_party_id (s : DB) (pid partyId : Nat) :
    (deleteApply s pid partyId).people.map Person.party_id =
      s.people.map Person.party_id :=
  map_key_eq _ _ _ (fun y => by split <;> rfl)

theorem mem_deleteApply_people {s : DB} {pid partyId : Nat} {q' : Person}
    (h : q' ∈ (deleteApply s pid partyId).people) :
    ∃ q ∈ s.people, q'.id = q.id ∧ q'.party_id = q.party_id ∧
      q'.first_name = q.first_name ∧ q'.last_name = q.last_name := by
  obtain ⟨q, hq, hEq⟩ := List.mem_map.1 h
  refine ⟨q, hq, ?_⟩
  rw [← hEq]
  split <;> exact ⟨rfl, rfl, rfl, rfl⟩

theorem mem_deleteApply_parties {s : DB} {pid partyId : Nat} {pa' : Party}
    (h : pa' ∈ (deleteApply s pid partyId).parties) :
    ∃ pa ∈ s.parties, pa'.id = pa.id ∧ pa'.display_name = pa.display_name ∧
      pa'.party_type = pa.party_type ∧
      (pa'.status = pa.status ∨ pa'.status = "archived") := by
  have h' : pa' ∈ (if partyId ≠ 0 then
      s.parties.map (fun pa =>
        if pa.id == partyId then { pa with status := "archived" } else pa)
    else s.parties) := h
  split at h'
  · obtain ⟨pa, hpa, hEq⟩ := List.mem_map.1 h'
    refine ⟨pa, hpa, ?_⟩
    rw [← hEq]
    split
    · exact ⟨rfl, rfl, rfl, Or.inr rfl⟩
    · exact ⟨rfl, rfl, rfl, Or.inl rfl⟩
  · exact ⟨pa', h', rfl, rfl, rfl, Or.inl rfl⟩

theorem deleteApply_parties_exists (s : DB) (pid partyId : Nat) :
    ∀ pa ∈ s.parties, ∃ pa' ∈ (deleteApply s pid partyId).parties,
      pa'.id = pa.id ∧ (pa'.status = pa.status ∨ pa'.status = "archived") := by
  intro pa hpa
  show ∃ pa' ∈ (if partyId ≠ 0 then
      s.parties.map (fun pa =>
        if pa.id == partyId then { pa with status := "archived" } else pa)
    else s.parties), pa'.id = pa.id ∧ _
  split
  · refine ⟨_, List.mem_map_of_mem _ hpa, ?_⟩
    split
    · exact ⟨rfl, Or.inr rfl⟩
    · exact ⟨rfl, Or.inl rfl⟩
  · exact ⟨pa, hpa, rfl, Or.inl rfl⟩

theorem deleteApply_parties_map_id (s : DB) (pid partyId : Nat) :
    (deleteApply s pid partyId).parties.map Party.id =
      s.parties.map Party.id := by
  show (if partyId ≠ 0 then
      s.parties.map (fun pa =>
        if pa.id == partyId then { pa with status := "archived" } else pa)
    else s.parties).map Party.id = _
  split
  · exact map_key_eq _ _ _ (fun y => by split <;> rfl)
  · rfl

theorem wf_deleteApply {s : DB} (h : WF s) (pid partyId : Nat) :
    WF (deleteApply s pid partyId) := by
  have hnext : (deleteApply s pid partyId).nextId = s.nextId := rfl
  refine ⟨?_, ?_, ?_, ?_, ?_, ?_, ?_⟩
  · intro pa hpa
    obtain ⟨pa0, hpa0, hid, _, _, _⟩ := mem_deleteApply_parties hpa
    rw [hnext, hid]
    exact h.partyKey pa0 hpa0
  · intro p hp
    obtain ⟨q, hq, hid, _, _, _⟩ := mem_deleteApply_people hp
    rw [hnext, hid]
    exact h.personKey q hq
  · intro p hp
    obtain ⟨q, hq, _, hpid, _, _⟩ := mem_deleteApply_people hp
    rw [hnext, hpid]
    exact h.linkKey q hq
  · rw [deleteApply_parties_map_id]
    exact h.partyNodup
  · rw [deleteApply_people_map_id]
    exact h.personNodup
  · rw [deleteApply_people_map_party_id]
    exact h.linkNodup
  · intro q' hq' pa' hpa' hid
    obtain ⟨q, hq, hqid, hqpid, hqf, hql⟩ := mem_deleteApply_people hq'
    obtain ⟨pa, hpa, hpaid, hpad, _, _⟩ := mem_deleteApply_parties hpa'
    rw [hqf, hql, hpad]
    exact h.names q hq pa hpa (by rw [← hpaid, hid, hqpid])

theorem create_person_ok_state {s : DB} {pd : PersonCreate} {s' : DB}
    {r : PersonResponse} (h : create_person s pd = .ok (s', r)) :
    s' = createdDB s pd := by
  unfold create_person at h
  split at h
  · simp at h
  · simp only [Except.ok.injEq, Prod.mk.injEq] at h
    exact h.1.symm

theorem update_person_ok_state {s : DB} {pid : Nat} {u : PersonUpdate}
    {s' : DB} {out : Option PersonResponse}
    (h : update_person s pid u = .ok (s', out)) :
    s' = s ∨ s' = afterUpdate s pid u := by
  unfold update_person at h
  split at h
  · simp only [Except.ok.injEq, Prod.mk.injEq] at h
    exact Or.inl h.1.symm
  · split at h
    · simp at h
    · split at h
      · simp only [Except.ok.injEq, Prod.mk.injEq] at h
        exact Or.inl h.1.symm
      · simp only [Except.ok.injEq, Prod.mk.injEq] at h
        exact Or.inr h.1.symm

theorem delete_person_state (s : DB) (pid : Nat) :
    (delete_person s pid).1 = s ∨
    ∃ person ∈ s.people, person.id = pid ∧
      (delete_person s pid).1 = deleteApply s pid person.party_id := by
  unfold delete_person
  split
  · exact Or.inl rfl
  next person hfind =>
    refine Or.inr ⟨person, List.mem_of_find?_eq_some hfind, ?_, rfl⟩
    simpa using List.find?_some hfind

theorem wf_runOp {s : DB} (h : WF s) (op : Op) : WF (runOp s op) := by
  cases op with
  | create pd =>
    simp only [runOp]
    split
    next s' r heq =>
      rw [create_person_ok_state heq]
      exact wf_createdDB h pd
    next => exact h
  | get pid => exact h
  | update pid u =>
    simp only [runOp]
    split
    next s' out heq =>
      rcases update_person_ok_state heq with rfl | rfl
      · exact h
      · exact wf_afterUpdate h pid u
    next => exact h
  | delete pid =>
    show WF (delete_person s pid).1
    rcases delete_person_state s pid with heq | ⟨person, _, _, heq⟩
    · rw [heq]
      exact h
    · rw [heq]
      exact wf_deleteApply h pid person.party_id

theorem wf_runOps {s : DB} (h : WF s) (ops : List Op) : WF (runOps s ops) := by
  induction ops generalizing s with
  | nil => exact h
  | cons op ops ih => exact ih (wf_runOp h op)

theorem runOps_append (s : DB) (ops1 ops2 : List Op) :
    runOps s (ops1 ++ ops2) = runOps (runOps s ops1) ops2 := by
  simp [runOps, List.foldl_append]

/-! ## Stability of the archived status -/

theorem afterUpdate_parties_track (s : DB) (pid : Nat) (u : PersonUpdate) :
    ∀ pa' ∈ (afterUpdate s pid u).parties, ∃ pa ∈ s.parties,
      pa'.id = pa.id ∧ pa'.status = pa.status := by
  unfold afterUpdate
  split
  · intro pa' h
    obtain ⟨pa, hpa, hid, hst, _⟩ := fixDisplay_parties_track _ _ pa' h
    exact ⟨pa, hpa, hid, hst⟩
  · intro pa' h
    exact ⟨pa', h, rfl, rfl⟩

theorem afterUpdate_parties_exists (s : DB) (pid : Nat) (u : PersonUpdate) :
    ∀ pa ∈ s.parties, ∃ pa' ∈ (afterUpdate s pid u).parties,
      pa'.id = pa.id ∧ pa'.status = pa.status := by
  unfold afterUpdate
  split
  · intro pa hpa
    exact fixDisplay_parties_exists _ _ pa hpa
  · intro pa hpa
    exact ⟨pa, hpa, rfl, rfl⟩

theorem archivedOnly_runOp {s : DB} {i : Nat} (hwf : WF s)
    (h : ArchivedOnly s i) (op : Op) : ArchivedOnly (runOp s op) i := by
  obtain ⟨⟨pa0, hpa0, hpa0id⟩, hall⟩ := h
  cases op with
  | get pid => exact ⟨⟨pa0, hpa0, hpa0id⟩, hall⟩
  | create pd =>
    simp only [runOp]
    split
    next s' r heq =>
      rw [create_person_ok_state heq]
      constructor
      · refine ⟨pa0, ?_, hpa0id⟩
        simp only [createdDB, List.mem_append]
        exact Or.inl hpa0
      · intro pa hpa hid
        simp only [createdDB, List.mem_append, List.mem_singleton] at hpa
        rcases hpa with hpa | rfl
        · exact hall pa hpa hid
        · exfalso
          obtain ⟨k, hk, hid0⟩ := hwf.partyKey pa0 hpa0
          have h1 : mkId s.nextId = i := hid
          have h2 : i = mkId k := by rw [← hpa0id, hid0]
          have := mkId_injEq (h1.trans h2)
          omega
    next => exact ⟨⟨pa0, hpa0, hpa0id⟩, hall⟩
  | update pid u =>
    simp only [runOp]
    split
    next s' out heq =>
      rcases update_person_ok_state heq with rfl | rfl
      · exact ⟨⟨pa0, hpa0, hpa0id⟩, hall⟩
      · constructor
        · obtain ⟨pa', hpa', hid, _⟩ :=
            afterUpdate_parties_exists s pid u pa0 hpa0
          exact ⟨pa', hpa', by rw [hid, hpa0id]⟩
        · intro pa' hpa' hid
          obtain ⟨pa, hpa, hid2, hst⟩ :=
            afterUpdate_parties_track s pid u pa' hpa'
          rw [hst]
          exact hall pa hpa (by rw [← hid2, hid])
    next => exact ⟨⟨pa0, hpa0, hpa0id⟩, hall⟩
  | delete pid =>
    show ArchivedOnly (delete_person s pid).1 i
    rcases delete_person_state s pid with heq | ⟨person, _, _, heq⟩
    · rw [heq]
      exact ⟨⟨pa0, hpa0, hpa0id⟩, hall⟩
    · rw [heq]
      constructor
      · obtain ⟨pa', hpa', hid, _⟩ :=
          deleteApply_parties_exists s pid person.party_id pa0 hpa0
        exact ⟨pa', hpa', by rw [hid, hpa0id]⟩
      · intro pa' hpa' hid
        obtain ⟨pa, hpa, hid2, _, _, hst⟩ := mem_deleteApply_parties hpa'
        rcases hst with hst | hst
        · rw [hst]
          exact hall pa hpa (by rw [← hid2, hid])
        · exact hst

theorem archivedOnly_runOps {s : DB} {i : Nat} (hwf : WF s)
    (h : ArchivedOnly s i) (ops : List Op) :
    ArchivedOnly (runOps s ops) i := by
  induction ops generalizing s with
  | nil => exact h
  | cons op ops ih => exact ih (wf_runOp hwf op) (archivedOnly_runOp hwf h op)

/-! ## The claims -/

/-- C1: for every valid create input (non-empty stripped names, valid
email) whose email is not used by any existing Person row, `create_person`
appends exactly one Party row (display name `"{first} {last}"`, type
`"person"`, status `"active"`) and exactly one Person row referencing that
Party's id, copying the input fields with `is_active = true`, both in the
one committed transaction, and returns the composed view of the new
pair. -/
theorem create_person_spec (s : DB) (pd : PersonCreate)
    (_hfn : validatedName pd.first_name) (_hln : validatedName pd.last_name)
    (_hem : validEmail pd.email)
    (hfree : ∀ p ∈ s.people, p.email ≠ pd.email) :
    ∃ party person,
      create_person s pd =
        .ok ({ parties := s.parties ++ [party],
               people := s.people ++ [person],
               nextId := s.nextId + 2 }, mkResponse person party) ∧
      party.display_name = pd.first_name ++ " " ++ pd.last_name ∧
      party.party_type = "person" ∧
      party.status = "active" ∧
      person.party_id = party.id ∧
      person.first_name = pd.first_name ∧
      person.last_name = pd.last_name ∧
      person.date_of_birth = pd.date_of_birth ∧
      person.email = pd.email ∧
      person.phone = pd.phone ∧
      person.is_active = true := by
  have hnone : s.people.find? (fun p => p.email == pd.email) = none :=
    List.find?_eq_none.2 (fun p hp => by simp [hfree p hp])
  refine ⟨newParty s pd, newPerson s pd, ?_, rfl, rfl, rfl, rfl, rfl, rfl,
    rfl, rfl, rfl, rfl⟩
  simp [create_person, emailExists, hnone, createdDB]

/-- Witness for C1 at the concrete payload `pdJohn` on the empty store. -/
theorem create_person_spec_witness :
    ∃ party person,
      create_person emptyDB pdJohn =
        .ok ({ parties := emptyDB.parties ++ [party],
               people := emptyDB.people ++ [person],
               nextId := emptyDB.nextId + 2 }, mkResponse person party) ∧
      party.display_name = pdJohn.first_name ++ " " ++ pdJohn.last_name ∧
      party.party_type = "person" ∧
      party.status = "active" ∧
      person.party_id = party.id ∧
      person.first_name = pdJohn.first_name ∧
      person.last_name = pdJohn.last_name ∧
      person.date_of_birth = pdJohn.date_of_birth ∧
      person.email = pdJohn.email ∧
      person.phone = pdJohn.phone ∧
      person.is_active = true :=
  create_person_spec emptyDB pdJohn (by decide) (by decide) (by decide)
    (fun p hp => by simp [emptyDB] at hp)

/-- C2: when some existing Person row (active or not) already has the
input's email, `create_person` raises the duplicate-email error before any
write, so the store is unchanged: no Party and no Person row is
created. -/
theorem create_person_duplicate (s : DB) (pd : PersonCreate)
    (h : ∃ p ∈ s.people, p.email = pd.email) :
    create_person s pd = .error "Email already exists" ∧
    runOp s (Op.create pd) = s := by
  obtain ⟨p, hp, hpe⟩ := h
  have hex : emailExists s.people pd.email = true :=
    List.find?_isSome.2 ⟨p, hp, by simp [hpe]⟩
  constructor
  · simp [create_person, hex]
  · simp [runOp, create_person, hex]

/-- Witness for C2: creating John twice; the second call errors and the
store still holds exactly one John pair. -/
theorem create_person_duplicate_witness :
    create_person dbJohn pdJohn = .error "Email already exists" ∧
    runOp dbJohn (Op.create pdJohn) = dbJohn :=
  create_person_duplicate dbJohn pdJohn (by decide)

/-- C3: in every state reachable from the empty store by any sequence of
service calls (in particular across every successful `update_person`,
which recomputes the linked Party's display name from the post-update
names), every Person row's linked Party carries
`display_name = "{first_name} {last_name}"` built from the row's current
names. -/
theorem display_name_invariant (ops : List Op) :
    NamesConsistent (runOps emptyDB ops) :=
  (wf_runOps wf_empty ops).names

/-- C9: once a Party row of a reachable store is archived, no further
sequence of service calls ever sets that Party's status back to
`"active"`: every later row with its id is still archived. -/
theorem party_archived_stable (ops0 ops1 : List Op) (pa : Party)
    (h1 : pa ∈ (runOps emptyDB ops0).parties) (h2 : pa.status = "archived") :
    ∀ pa' ∈ (runOps emptyDB (ops0 ++ ops1)).parties, pa'.id = pa.id →
      pa'.status = "archived" := by
  have hwf := wf_runOps wf_empty ops0
  have h0 : ArchivedOnly (runOps emptyDB ops0) pa.id := by
    refine ⟨⟨pa, h1, rfl⟩, ?_⟩
    intro pa0 hpa0 hid
    have heq : pa0 = pa :=
      List.inj_on_of_nodup_map hwf.partyNodup hpa0 h1 hid
    rw [heq]
    exact h2
  rw [runOps_append]
  exact (archivedOnly_runOps hwf h0 ops1).2

/-- Witness for C9: John's Party is archived by the delete and stays
archived across a later create and update. -/
theorem party_archived_stable_witness :
    johnPartyArchived ∈ (runOps emptyDB ([Op.create pdJohn, Op.delete 2] ++
      [Op.create pdJane, Op.update 2 updFirst])).parties ∧
    johnPartyArchived.status = "archived" :=
  ⟨by decide,
   party_archived_stable [Op.create pdJohn, Op.delete 2]
     [Op.create pdJane, Op.update 2 updFirst] johnPartyArchived
     (by decide) rfl johnPartyArchived (by decide) rfl⟩

/-- C5: `get_person` returns a composed view exactly when a Person row
with the id exists, is active, and its Party relation is present; in every
other case it returns an absence (`none`), and any returned view is the
full composition of the two rows, never partially filled. -/
theorem get_person_spec (s : DB) (pid : Nat)
    (hnd : (s.people.map Person.id).Nodup) :
    ((∃ r, get_person s pid = some r) ↔
      ∃ p ∈ s.people, p.id = pid ∧ p.is_active = true ∧
        ∃ pa ∈ s.parties, pa.id = p.party_id) ∧
    (∀ r, get_person s pid = some r →
      ∃ p ∈ s.people, ∃ pa ∈ s.parties, p.id = pid ∧ p.is_active = true ∧
        pa.id = p.party_id ∧ r = mkResponse p pa) := by
  constructor
  · constructor
    · rintro ⟨r, hr⟩
      unfold get_person at hr
      split at hr
      · exact absurd hr (by simp)
      next person hfind =>
        split at hr
        · exact absurd hr (by simp)
        next party hpfind =>
          have h1 := List.mem_of_find?_eq_some hfind
          have h2 := List.find?_some hfind
          simp only [Bool.and_eq_true, beq_iff_eq] at h2
          have h3 := List.mem_of_find?_eq_some hpfind
          have h4 := List.find?_some hpfind
          simp only [beq_iff_eq] at h4
          exact ⟨person, h1, h2.1, h2.2, party, h3, h4⟩
    · rintro ⟨p, hp, hpid, hact, pa, hpa, hpaid⟩
      have hfind : s.people.find? (fun q => q.id == pid && q.is_active) =
          some p :=
        find?_eq_some_of_unique Person.id hnd hp (by simp [hpid, hact])
          (fun y _ hy => by
            simp only [Bool.and_eq_true, beq_iff_eq] at hy
            exact hy.1.trans hpid.symm)
      have hpf : (s.parties.find? (fun pa0 => pa0.id == p.party_id)).isSome :=
        List.find?_isSome.2 ⟨pa, hpa, by simp [hpaid]⟩
      obtain ⟨pa0, hpa0⟩ := Option.isSome_iff_exists.1 hpf
      exact ⟨mkResponse p pa0, by simp [get_person, hfind, hpa0]⟩
  · intro r hr
    unfold get_person at hr
    split at hr
    · exact absurd hr (by simp)
    next person hfind =>
      split at hr
      · exact absurd hr (by simp)
      next party hpfind =>
        have h1 := List.mem_of_find?_eq_some hfind
        have h2 := List.find?_some hfind
        simp only [Bool.and_eq_true, beq_iff_eq] at h2
        have h3 := List.mem_of_find?_eq_some hpfind
        have h4 := List.find?_some hpfind
        simp only [beq_iff_eq] at h4
        exact ⟨person, h1, party, h3, h2.1, h2.2, h4,
          (Option.some.inj hr).symm⟩

/-- Witness for C5 on the one-person store at John's id. -/
theorem get_person_spec_witness :
    ((∃ r, get_person dbJohn 2 = some r) ↔
      ∃ p ∈ dbJohn.people, p.id = 2 ∧ p.is_active = true ∧
        ∃ pa ∈ dbJohn.parties, pa.id = p.party_id) ∧
    (∀ r, get_person dbJohn 2 = some r →
      ∃ p ∈ dbJohn.people, ∃ pa ∈ dbJohn.parties, p.id = 2 ∧
        p.is_active = true ∧ pa.id = p.party_id ∧ r = mkResponse p pa) :=
  get_person_spec dbJohn 2 (by decide)

/-- C4: `delete_person` returns `true` exactly when a Person row with the
id exists, active or not (so deleting an already-inactive row still
returns `true`); when it returns `true`, afterwards that row is inactive
and every Party row carrying its `party_id` is archived; when it returns
`false`, the store is unchanged.  The hypothesis `party_id ≠ 0` renders
the non-null uuid string column, whose Python truthiness guards the Party
update. -/
theorem delete_person_spec (s : DB) (pid : Nat)
    (hnd : (s.people.map Person.id).Nodup)
    (hlink : ∀ p ∈ s.people, p.party_id ≠ 0) :
    ((delete_person s pid).2 = true ↔ ∃ p ∈ s.people, p.id = pid) ∧
    ((delete_person s pid).2 = false → delete_person s pid = (s, false)) ∧
    (∀ p' ∈ (delete_person s pid).1.people, p'.id = pid →
      p'.is_active = false) ∧
    (∀ p ∈ s.people, p.id = pid →
      ∀ pa' ∈ (delete_person s pid).1.parties, pa'.id = p.party_id →
        pa'.status = "archived") := by
  cases hfind : s.people.find? (fun p => p.id == pid) with
  | none =>
    have hno : ∀ p ∈ s.people, ¬ p.id = pid := by
      intro p hp hpe
      have := List.find?_eq_none.1 hfind p hp
      simp [hpe] at this
    simp only [delete_person, hfind]
    refine ⟨?_, ?_, ?_, ?_⟩
    · constructor
      · intro h
        simp at h
      · rintro ⟨p, hp, hpe⟩
        exact absurd hpe (hno p hp)
    · intro _
      trivial
    · intro p' hp' hpe
      exact absurd hpe (hno p' hp')
    · intro p hp hpe
      exact absurd hpe (hno p hp)
  | some person =>
    have hmem := List.mem_of_find?_eq_some hfind
    have hid : person.id = pid := by simpa using List.find?_some hfind
    have hpos : 0 < (s.people.filter (fun p => p.id == pid)).length := by
      have : person ∈ s.people.filter (fun p => p.id == pid) :=
        List.mem_filter.2 ⟨hmem, by simp [hid]⟩
      exact List.length_pos.2 (List.ne_nil_of_mem this)
    simp only [delete_person, hfind]
    refine ⟨?_, ?_, ?_, ?_⟩
    · constructor
      · intro _
        exact ⟨person, hmem, hid⟩
      · intro _
        simp only [decide_eq_true_eq]
        exact hpos
    · intro hfalse
      exfalso
      rw [decide_eq_false_iff_not] at hfalse
      exact hfalse hpos
    · intro p' hp' hpe
      obtain ⟨q, hq, hEq⟩ := List.mem_map.1 hp'
      by_cases hc : (q.id == pid) = true
      · rw [← hEq, if_pos hc]
      · have hpq : p' = q := by rw [← hEq, if_neg hc]
        rw [hpq] at hpe
        simp [hpe] at hc
    · intro p hp hpe pa' hpa' hpaid
      have hpp : p = person :=
        List.inj_on_of_nodup_map hnd hp hmem (by rw [hpe, hid])
      have hnz : person.party_id ≠ 0 := hlink person hmem
      have hpaid' : pa'.id = person.party_id := by rw [hpaid, hpp]
      have hpa'' : pa' ∈ s.parties.map (fun pa =>
          if pa.id == person.party_id then { pa with status := "archived" }
          else pa) := by
        have h0 := hpa'
        simp only [deleteApply] at h0
        rw [if_pos hnz] at h0
        exact h0
      obtain ⟨pa, hpa, hEq⟩ := List.mem_map.1 hpa''
      by_cases hc : (pa.id == person.party_id) = true
      · rw [← hEq, if_pos hc]
      · have hppa : pa' = pa := by rw [← hEq, if_neg hc]
        rw [hppa] at hpaid'
        simp [hpaid'] at hc

/-- Witness for C4 on the one-person store at John's id. -/
theorem delete_person_spec_witness :
    ((delete_person dbJohn 2).2 = true ↔ ∃ p ∈ dbJohn.people, p.id = 2) ∧
    ((delete_person dbJohn 2).2 = false → delete_person dbJohn 2 =
      (dbJohn, false)) ∧
    (∀ p' ∈ (delete_person dbJohn 2).1.people, p'.id = 2 →
      p'.is_active = false) ∧
    (∀ p ∈ dbJohn.people, p.id = 2 →
      ∀ pa' ∈ (delete_person dbJohn 2).1.parties, pa'.id = p.party_id →
        pa'.status = "archived") :=
  delete_person_spec dbJohn 2 (by decide) (by decide)

/-- Witness for C3: the invariant evaluated on a concrete trace that
creates John and renames him. -/
theorem display_name_invariant_witness :
    NamesConsistent (runOps emptyDB [Op.create pdJohn, Op.update 2 updFirst]) :=
  display_name_invariant [Op.create pdJohn, Op.update 2 updFirst]

/-- C10: when the update payload provides an email already used by a row
whose id differs from the target (active or not), `update_person` raises
the duplicate-email error; since this check runs before the
target-existence lookup, the call errors rather than returning the
not-found `none` even when the target does not exist or is inactive, and
no row is modified (the raise precedes every write). -/
theorem update_person_email_conflict (s : DB) (pid : Nat) (u : PersonUpdate)
    (e : String) (he : u.email.provided? = some e)
    (hother : ∃ q ∈ s.people, q.email = e ∧ q.id ≠ pid) :
    update_person s pid u = .error "Email already exists" ∧
    runOp s (Op.update pid u) = s := by
  have hap : anyProvided u = true := by
    simp [anyProvided, UpdField.isProvided, he]
  have hcf : emailConflictB s pid u = true := by
    obtain ⟨q, hq, hqe, hqid⟩ := hother
    simp only [emailConflictB, he]
    exact List.find?_isSome.2 ⟨q, hq, by simp [hqe, hqid]⟩
  constructor
  · simp [update_person, hap, hcf]
  · simp [runOp, update_person, hap, hcf]

/-- Witness for C10: Jane's store, a nonexistent target id, and John's
email: the call errors instead of reporting not-found. -/
theorem update_person_email_conflict_witness :
    update_person dbTwo 99 updEmailJohn = .error "Email already exists" ∧
    runOp dbTwo (Op.update 99 updEmailJohn) = dbTwo :=
  update_person_email_conflict dbTwo 99 updEmailJohn "john@x.com" rfl
    (by decide)

theorem eraseNull_provided {α : Type} (f : UpdField α) :
    (UpdField.eraseNull f).provided? = f.provided? := by
  cases f <;> rfl

theorem applyUpd_eraseNulls (u : PersonUpdate) (p : Person) :
    applyUpd (eraseNulls u) p = applyUpd u p := by
  simp [applyUpd, eraseNulls, eraseNull_provided]

theorem anyProvided_eraseNulls (u : PersonUpdate) :
    anyProvided (eraseNulls u) = anyProvided u := by
  simp [anyProvided, UpdField.isProvided, eraseNulls, eraseNull_provided]

theorem emailConflictB_eraseNulls (s : DB) (pid : Nat) (u : PersonUpdate) :
    emailConflictB s pid (eraseNulls u) = emailConflictB s pid u := by
  simp [emailConflictB, eraseNulls, eraseNull_provided]

theorem updPeople_eraseNulls (s : DB) (pid : Nat) (u : PersonUpdate) :
    updPeople s pid (eraseNulls u) = updPeople s pid u := by
  unfold updPeople
  exact List.map_congr_left (fun q _ => by split <;> simp [applyUpd_eraseNulls])

theorem afterUpdate_eraseNulls (s : DB) (pid : Nat) (u : PersonUpdate) :
    afterUpdate s pid (eraseNulls u) = afterUpdate s pid u := by
  unfold afterUpdate
  have h1 : (eraseNulls u).first_name.isProvided = u.first_name.isProvided := by
    simp [UpdField.isProvided, eraseNulls, eraseNull_provided]
  have h2 : (eraseNulls u).last_name.isProvided = u.last_name.isProvided := by
    simp [UpdField.isProvided, eraseNulls, eraseNull_provided]
  have h3 : midState s pid (eraseNulls u) = midState s pid u := by
    simp [midState, updPeople_eraseNulls]
  rw [h1, h2, h3]

theorem afterUpdate_people (s : DB) (pid : Nat) (u : PersonUpdate) :
    (afterUpdate s pid u).people = updPeople s pid u := by
  unfold afterUpdate
  split
  · rw [fixDisplay_people]
    rfl
  · rfl

/-- C6: an update payload and its null-erased form are indistinguishable
to `update_person` (unset fields and explicit nulls are equally ignored),
`party_id` is never modified by any update call, and when no field
survives the filtering the call is exactly a `get_person` with the store
unchanged. -/
theorem update_person_partial_semantics (s : DB) (pid : Nat)
    (u : PersonUpdate) :
    update_person s pid (eraseNulls u) = update_person s pid u ∧
    (anyProvided u = false →
      update_person s pid u = .ok (s, get_person s pid)) ∧
    (∀ s' out, update_person s pid u = .ok (s', out) →
      s'.people.map Person.party_id = s.people.map Person.party_id) := by
  refine ⟨?_, ?_, ?_⟩
  · simp only [update_person, anyProvided_eraseNulls,
      emailConflictB_eraseNulls, afterUpdate_eraseNulls]
  · intro h
    simp [update_person, h]
  · intro s' out h
    rcases update_person_ok_state h with rfl | rfl
    · rfl
    · rw [afterUpdate_people]
      exact updPeople_map_party_id s pid u

/-- Witness for C6: the all-null payload on John's store behaves as a
`get_person` with the store unchanged. -/
theorem update_person_partial_semantics_witness :
    update_person dbJohn 2 updNulls = .ok (dbJohn, get_person dbJohn 2) :=
  (update_person_partial_semantics dbJohn 2 updNulls).2.1 rfl

theorem filterMap_drop_of_isSome {α β : Type} (f : α → Option β) :
    ∀ (l : List α) (n : Nat), (∀ x ∈ l, (f x).isSome) →
      (l.filterMap f).drop n = (l.drop n).filterMap f := by
  intro l
  induction l with
  | nil =>
    intro n _
    simp
  | cons x xs ih =>
    intro n h
    obtain ⟨b, hb⟩ :=
      Option.isSome_iff_exists.1 (h x (List.mem_cons_self x xs))
    cases n with
    | zero => simp
    | succ m =>
      rw [List.filterMap_cons_some hb]
      rw [List.drop_succ_cons]
      rw [List.drop_succ_cons]
      exact ih m (fun y hy => h y (List.mem_cons_of_mem x hy))

/-- C8: `list_people` (modelled from the spec, §4.1, since the method is
invoked by the API route but absent from the source tree) returns only
active Persons, each as the composed view of a Person row and its Party
row, at most `limit` of them, in insertion order after dropping the first
`skip`; in particular no returned view has `is_active = false`, and when
every Person row has its Party (the 1:1 relation of §3), a `skip` window
is exactly the zero-skip listing with its first `skip` results omitted. -/
theorem list_people_spec (s : DB) (skip limit : Nat) :
    (∀ r ∈ list_people s skip limit, r.is_active = true) ∧
    (list_people s skip limit).length ≤ limit ∧
    (∀ r ∈ list_people s skip limit, ∃ p ∈ s.people, ∃ pa ∈ s.parties,
      p.is_active = true ∧ pa.id = p.party_id ∧ r = mkResponse p pa) ∧
    ((∀ p ∈ s.people, ∃ pa ∈ s.parties, pa.id = p.party_id) →
      list_people s skip limit = (list_people s 0 (skip + limit)).drop skip) := by
  have hmem : ∀ r ∈ list_people s skip limit, ∃ p ∈ s.people,
      ∃ pa ∈ s.parties, p.is_active = true ∧ pa.id = p.party_id ∧
        r = mkResponse p pa := by
    intro r hr
    unfold list_people at hr
    obtain ⟨p, hp, hpr⟩ := List.mem_filterMap.1 hr
    have hp2 : p ∈ s.people.filter (fun p => p.is_active) :=
      List.drop_subset _ _ (List.take_subset _ _ hp)
    have hp3 := List.mem_filter.1 hp2
    cases hfind : s.parties.find? (fun pa => pa.id == p.party_id) with
    | none =>
      rw [hfind] at hpr
      simp at hpr
    | some pa =>
      rw [hfind] at hpr
      have hpa := List.mem_of_find?_eq_some hfind
      have hpaid : pa.id = p.party_id := by simpa using List.find?_some hfind
      exact ⟨p, hp3.1, pa, hpa, by simpa using hp3.2, hpaid,
        (Option.some.inj hpr).symm⟩
  refine ⟨?_, ?_, hmem, ?_⟩
  · intro r hr
    obtain ⟨p, _, pa, _, hact, _, hre⟩ := hmem r hr
    rw [hre]
    exact hact
  · exact le_trans (List.length_filterMap_le _ _) (List.length_take_le _ _)
  · intro htot
    unfold list_people
    simp only [List.drop_zero]
    rw [filterMap_drop_of_isSome]
    · rw [List.take_drop]
    · intro x hx
      have hx2 : x ∈ s.people.filter (fun p => p.is_active) :=
        List.take_subset _ _ hx
      have hx3 := (List.mem_filter.1 hx2).1
      obtain ⟨pa, hpa, hpaid⟩ := htot x hx3
      have hfs : (s.parties.find? (fun pa0 => pa0.id == x.party_id)).isSome :=
        List.find?_isSome.2 ⟨pa, hpa, by simp [hpaid]⟩
      obtain ⟨pa0, hpa0⟩ := Option.isSome_iff_exists.1 hfs
      simp [hpa0]

/-- Witness for C8 on the two-person store with `skip = 1`: the skip
window equals the zero-skip listing with its first result omitted. -/
theorem list_people_spec_witness :
    (∀ r ∈ list_people dbTwo 1 100, r.is_active = true) ∧
    (list_people dbTwo 1 100).length ≤ 100 ∧
    (∀ r ∈ list_people dbTwo 1 100, ∃ p ∈ dbTwo.people, ∃ pa ∈ dbTwo.parties,
      p.is_active = true ∧ pa.id = p.party_id ∧ r = mkResponse p pa) ∧
    list_people dbTwo 1 100 = (list_people dbTwo 0 (1 + 100)).drop 1 :=
  ⟨(list_people_spec dbTwo 1 100).1, (list_people_spec dbTwo 1 100).2.1,
   (list_people_spec dbTwo 1 100).2.2.1,
   (list_people_spec dbTwo 1 100).2.2.2 (by decide)⟩

theorem afterUpdate_nextId (s : DB) (pid : Nat) (u : PersonUpdate) :
    (afterUpdate s pid u).nextId = s.nextId := by
  unfold afterUpdate
  split
  · rw [fixDisplay_nextId]
    rfl
  · rfl

theorem fixDisplay_eq {m : DB} {pid : Nat} {p2 : Person} {pa0 : Party}
    (h1 : m.people.find? (fun p => p.id == pid) = some p2)
    (h2 : m.parties.find? (fun pa => pa.id == p2.party_id) = some pa0) :
    fixDisplay m pid = { m with parties := m.parties.map (fun pa =>
      if pa.id == p2.party_id then
        { pa with display_name := p2.first_name ++ " " ++ p2.last_name }
      else pa) } := by
  unfold fixDisplay
  simp only [h1, h2]

theorem get_person_isSome_of {s : DB} {pid : Nat} {p : Person}
    (h1 : s.people.find? (fun q => q.id == pid && q.is_active) = some p)
    (h2 : (s.parties.find? (fun pa0 => pa0.id == p.party_id)).isSome) :
    (get_person s pid).isSome := by
  obtain ⟨pa0, hpa0⟩ := Option.isSome_iff_exists.1 h2
  unfold get_person
  simp [h1, hpa0]

/-- C7: a successful update that provides only `first_name` rewrites
exactly that Person's `first_name` and its linked Party's `display_name`
(to the new first name with the unchanged last name); every other field of
the row, and every other Person and Party row, are unchanged, and the call
returns the re-read composed view, which exists. -/
theorem update_first_name_frame (s : DB) (pid : Nat) (u : PersonUpdate)
    (fn : String)
    (hf : u.first_name = UpdField.val fn)
    (hl : u.last_name.isProvided = false)
    (hd : u.date_of_birth.isProvided = false)
    (he : u.email.isProvided = false)
    (hph : u.phone.isProvided = false)
    (p : Person) (hpmem : p ∈ s.people) (hpid : p.id = pid)
    (hact : p.is_active = true)
    (pa : Party) (hpamem : pa ∈ s.parties) (hpaid : pa.id = p.party_id)
    (hnd : (s.people.map Person.id).Nodup)
    (hnd2 : (s.parties.map Party.id).Nodup) :
    ∃ s', update_person s pid u = .ok (s', get_person s' pid) ∧
      s'.people = s.people.map (fun q =>
        if q.id = pid then { q with first_name := fn } else q) ∧
      s'.parties = s.parties.map (fun pa0 =>
        if pa0.id = p.party_id then
          { pa0 with display_name := fn ++ " " ++ p.last_name }
        else pa0) ∧
      s'.nextId = s.nextId ∧
      (get_person s' pid).isSome := by
  have hfp : u.first_name.isProvided = true := by
    simp [UpdField.isProvided, hf, UpdField.provided?]
  have hap : anyProvided u = true := by
    simp [anyProvided, hfp]
  have hcf : emailConflictB s pid u = false := by
    simp [emailConflictB, UpdField.provided?_eq_none he]
  have happly : applyUpd u p = { p with first_name := fn } := by
    have e1 : u.first_name.provided? = some fn := by
      rw [hf]
      rfl
    simp [applyUpd, e1, UpdField.provided?_eq_none hl,
      UpdField.provided?_eq_none hd, UpdField.provided?_eq_none he,
      UpdField.provided?_eq_none hph]
  have hfind : s.people.find? (fun q => q.id == pid && q.is_active) =
      some p :=
    find?_eq_some_of_unique Person.id hnd hpmem (by simp [hpid, hact])
      (fun y _ hy => by
        simp only [Bool.and_eq_true, beq_iff_eq] at hy
        exact hy.1.trans hpid.symm)
  have hmain : update_person s pid u =
      .ok (afterUpdate s pid u, get_person (afterUpdate s pid u) pid) := by
    simp [update_person, hap, hcf, hfind]
  have hupd : updPeople s pid u = s.people.map (fun q =>
      if q.id = pid then { q with first_name := fn } else q) := by
    unfold updPeople
    refine List.map_congr_left ?_
    intro q hq
    by_cases hqid : q.id = pid
    · have hqp : q = p :=
        List.inj_on_of_nodup_map hnd hq hpmem (by rw [hqid, hpid])
      subst hqp
      simp [hpid, hact, happly]
    · simp [hqid]
  have hA : ((updPeople s pid u).map Person.id).Nodup := by
    rw [updPeople_map_id]
    exact hnd
  have hmem2 : applyUpd u p ∈ updPeople s pid u := by
    unfold updPeople
    have hmm := List.mem_map_of_mem
      (fun q => if q.id == pid && q.is_active then applyUpd u q else q) hpmem
    simpa [hpid, hact] using hmm
  have hfind2 : (updPeople s pid u).find? (fun q => q.id == pid) =
      some (applyUpd u p) :=
    find?_eq_some_of_unique Person.id hA hmem2 (by simp [hpid])
      (fun y _ hy => by
        simp only [beq_iff_eq] at hy
        simp [hy, hpid])
  have hfind3 : s.parties.find?
      (fun pa0 => pa0.id == (applyUpd u p).party_id) = some pa :=
    find?_eq_some_of_unique Party.id hnd2 hpamem (by simp [hpaid])
      (fun y _ hy => by
        simp only [beq_iff_eq] at hy
        simp [hy, hpaid])
  have hfind2m : (midState s pid u).people.find? (fun q => q.id == pid) =
      some (applyUpd u p) := hfind2
  have hfind3m : (midState s pid u).parties.find?
      (fun pa0 => pa0.id == (applyUpd u p).party_id) = some pa := hfind3
  have hafter : afterUpdate s pid u = fixDisplay (midState s pid u) pid := by
    unfold afterUpdate
    rw [if_pos (by simp [hfp])]
  have hparty : (afterUpdate s pid u).parties = s.parties.map (fun pa0 =>
      if pa0.id = p.party_id then
        { pa0 with display_name := fn ++ " " ++ p.last_name }
      else pa0) := by
    rw [hafter, fixDisplay_eq hfind2m hfind3m]
    show (midState s pid u).parties.map _ = _
    refine List.map_congr_left ?_
    intro pa0 _
    by_cases hc : pa0.id = p.party_id
    · simp [happly, hc]
    · simp [happly, hc]
  have hf1 : (afterUpdate s pid u).people.find?
      (fun q => q.id == pid && q.is_active) = some (applyUpd u p) := by
    rw [afterUpdate_people]
    exact find?_eq_some_of_unique Person.id hA hmem2
      (by simp [hpid, hact]) (fun y _ hy => by
        simp only [Bool.and_eq_true, beq_iff_eq] at hy
        simp [hy.1, hpid])
  have hf2 : ((afterUpdate s pid u).parties.find?
      (fun pa0 => pa0.id == (applyUpd u p).party_id)).isSome := by
    rw [hparty]
    refine List.find?_isSome.2 ⟨_, List.mem_map_of_mem _ hpamem, ?_⟩
    simp [hpaid]
  refine ⟨afterUpdate s pid u, hmain, ?_, hparty, afterUpdate_nextId s pid u,
    get_person_isSome_of hf1 hf2⟩
  rw [afterUpdate_people, hupd]

/-- Witness for C7: renaming John to Janet on the one-person store. -/
theorem update_first_name_frame_witness :
    ∃ s', update_person dbJohn 2 updFirst = .ok (s', get_person s' 2) ∧
      s'.people = dbJohn.people.map (fun q =>
        if q.id = 2 then { q with first_name := "Janet" } else q) ∧
      s'.parties = dbJohn.parties.map (fun pa0 =>
        if pa0.id = johnRow.party_id then
          { pa0 with display_name := "Janet" ++ " " ++ johnRow.last_name }
        else pa0) ∧
      s'.nextId = dbJohn.nextId ∧
      (get_person s' 2).isSome :=
  update_first_name_frame dbJohn 2 updFirst "Janet" rfl rfl rfl rfl rfl
    johnRow (by decide) rfl rfl johnParty (by decide) rfl
    (by decide) (by decide)
